import Mathlib

/-!
Verification of the Myst IV big-file container codec (m4bf.py).

Shallow embedding conventions:
* Python bytes are modelled as List Nat with values below 256 where produced.
* Python text strings are List Nat of character code points; the latin1 codec
  maps code points 0 to 255 to single bytes one-to-one, so encode/decode are
  the identity on such lists and encoding fails on code points above 255.
* struct.pack / struct.unpack failures (short reads, out-of-range values) are
  modelled with Option / Except.
* The decoder read_entries mutates self.children in the source; its embedding
  returns Except where the error value carries the children that had already
  been appended to the node when the exception was raised.
* Recursion in the decoder is bounded by explicit fuel; the fuel is an
  embedding artifact and read_entriesTop always supplies enough of it
  (one unit of fuel is consumed only after at least one input byte).
-/

/-- Bytes of the little-endian 4-byte encoding of n (struct pack <I). -/
def u32le (n : Nat) : List Nat :=
  [n % 256, n / 256 % 256, n / 65536 % 256, n / 16777216 % 256]

/-- pack with format <B : one unsigned byte; struct.error when out of range. -/
def packU8 (n : Nat) : Option (List Nat) :=
  if n < 256 then some [n] else none

/-- pack with format <I : 4-byte little-endian; struct.error when out of range. -/
def packU32 (n : Nat) : Option (List Nat) :=
  if n < 4294967296 then some (u32le n) else none

/-- unpack of format <B from f.read(1): struct.error when no byte remains. -/
def readU8 : List Nat → Option (Nat × List Nat)
  | [] => none
  | b :: rest => some (b, rest)

/-- unpack of format <I from f.read(4): struct.error when fewer than 4 bytes remain. -/
def readU32 : List Nat → Option (Nat × List Nat)
  | a :: b :: c :: d :: rest => some (a + 256 * b + 65536 * c + 16777216 * d, rest)
  | _ => none

/-- rstrip of null bytes: drops every trailing zero byte, as bytes.rstrip(b chr0). -/
def rstripNulls (l : List Nat) : List Nat :=
  (l.reverse.dropWhile (fun b => b == 0)).reverse

/-- str_unpack: reads a 4-byte length L, then reads up to L bytes (f.read
    silently returns fewer when the stream is short), strips all trailing
    null bytes and decodes latin1 (identity on byte values). Fails only when
    fewer than 4 bytes remain for the length field. -/
def str_unpack (input : List Nat) : Option (List Nat × List Nat) :=
  match readU32 input with
  | none => none
  | some (len_str, rest) => some (rstripNulls (rest.take len_str), rest.drop len_str)

/-- str_pack: length len(s)+1 when s is nonempty else 0, then the latin1 bytes
    padded by pack to the declared length with exactly one null byte.
    Fails when a character is above 255 (latin1 encode error) or the length
    does not fit the 4-byte field. -/
def str_pack (s : List Nat) : Option (List Nat) :=
  let len_str := s.length + (if s.isEmpty then 0 else 1)
  if (s.all fun c => decide (c < 256)) && decide (len_str < 4294967296) then
    some (u32le len_str ++ s ++ (if s.isEmpty then [] else [0]))
  else none

/-- Node model: FileNode carries name, size, offset; DirNode carries name and
    the ordered list of children in insertion order. -/
inductive Node where
  | file : List Nat → Nat → Nat → Node
  | dir : List Nat → List Node → Node

def isDir : Node → Bool
  | .dir _ _ => true
  | .file _ _ _ => false

def isFile : Node → Bool
  | .file _ _ _ => true
  | .dir _ _ => false

def nodeName : Node → List Nat
  | .file nm _ _ => nm
  | .dir nm _ => nm

def nodeSize : Node → Nat
  | .file _ sz _ => sz
  | .dir _ _ => 0

def nodeOffset : Node → Nat
  | .file _ _ off => off
  | .dir _ _ => 0

/-- num_subdirs property: count of DirNode children. -/
def num_subdirs (cs : List Node) : Nat := (cs.filter isDir).length

/-- num_files property: count of FileNode children. -/
def num_files (cs : List Node) : Nat := (cs.filter isFile).length

/-- Second pass of write_entries: for each FileNode child, name then 4-byte
    size then 4-byte offset. -/
def writeFilesPass : List Node → Option (List Nat)
  | [] => some []
  | c :: rest =>
    if isFile c then
      match str_pack (nodeName c), packU32 (nodeSize c), packU32 (nodeOffset c),
            writeFilesPass rest with
      | some nb, some sb, some ob, some rb => some (nb ++ sb ++ ob ++ rb)
      | _, _, _, _ => none
    else writeFilesPass rest

mutual
/-- write_entries method of DirNode: 1-byte subdir count, then per DirNode
    child its name and recursive entry, then 4-byte file count, then the
    file records. Returns the emitted bytes, none on a struct or encode error. -/
def write_entries : Node → Option (List Nat)
  | .file _ _ _ => none
  | .dir _ kids =>
    match packU8 (num_subdirs kids), writeDirsPass kids,
          packU32 (num_files kids), writeFilesPass kids with
    | some cb, some db, some nf, some fb => some (cb ++ db ++ nf ++ fb)
    | _, _, _, _ => none
/-- First pass of write_entries: the loop over children that serializes only
    DirNode children, in insertion order. -/
def writeDirsPass : List Node → Option (List Nat)
  | [] => some []
  | c :: rest =>
    if isDir c then
      match str_pack (nodeName c), write_entries c, writeDirsPass rest with
      | some nb, some eb, some rb => some (nb ++ eb ++ rb)
      | _, _, _ => none
    else writeDirsPass rest
end

/-- Loop of size_header over FileNode children. -/
def sizeFilesPass : List Node → Nat → Option Nat
  | [], size => some size
  | c :: rest, size =>
    if isFile c then
      match str_pack (nodeName c) with
      | none => none
      | some nb => sizeFilesPass rest (size + nb.length + 4 + 4)
    else sizeFilesPass rest size

mutual
/-- size_header method of DirNode: accumulates the encoded length of the
    header, 19 as default start: name bytes plus one count byte, the subdir
    entries recursively, 4 bytes for the file count, and name plus 8 bytes
    per file. Uses str_pack on names, so it fails on unencodable names. -/
def size_header : Node → Nat → Option Nat
  | .file _ _ _, _ => none
  | .dir nm kids, size =>
    match str_pack nm with
    | none => none
    | some nb =>
      match sizeDirsPass kids (size + nb.length + 1) with
      | none => none
      | some s2 => sizeFilesPass kids (s2 + 4)
/-- Loop of size_header over DirNode children. -/
def sizeDirsPass : List Node → Nat → Option Nat
  | [], size => some size
  | c :: rest, size =>
    if isDir c then
      match size_header c size with
      | none => none
      | some s2 => sizeDirsPass rest s2
    else sizeDirsPass rest size
end

/-- Loop of read_entries over the file records: name string, then the <II
    pair of size and offset. The FileNode is added only after all three
    fields parsed; on failure the error carries the files already added. -/
def readFilesLoop : Nat → List Nat → Except (List Node) (List Node × List Nat)
  | 0, input => .ok ([], input)
  | n + 1, input =>
    match str_unpack input with
    | none => .error []
    | some (nm, r1) =>
      match readU32 r1 with
      | none => .error []
      | some (sz, r2) =>
        match readU32 r2 with
        | none => .error []
        | some (off, r3) =>
          match readFilesLoop n r3 with
          | .error older => .error (.file nm sz off :: older)
          | .ok (fs, r4) => .ok (.file nm sz off :: fs, r4)

mutual
/-- read_entries method of DirNode: reads the 1-byte subdir count, decodes
    that many named subdir entries recursively, then the 4-byte file count
    and that many file records. The ok value is the list of children added
    to self plus the remaining input; the error value is the children that
    had already been added to self when the struct error was raised (a
    subdir whose own decode fails is discarded, since self.add runs after
    the recursive call). Fuel only decreases, see read_entriesTop. -/
def read_entries : Nat → List Nat → Except (List Node) (List Node × List Nat)
  | 0, _ => .error []
  | fuel + 1, input =>
    match readU8 input with
    | none => .error []
    | some (num_dirs, r1) =>
      match readDirsLoop fuel num_dirs r1 with
      | .error kids => .error kids
      | .ok (ds, r2) =>
        match readU32 r2 with
        | none => .error ds
        | some (nf, r3) =>
          match readFilesLoop nf r3 with
          | .error fs0 => .error (ds ++ fs0)
          | .ok (fs1, r4) => .ok (ds ++ fs1, r4)
/-- Loop of read_entries over the subdir entries: name string, then the
    recursive entry, then DirNode added. -/
def readDirsLoop : Nat → Nat → List Nat → Except (List Node) (List Node × List Nat)
  | 0, _, _ => .error []
  | _ + 1, 0, input => .ok ([], input)
  | fuel + 1, n + 1, input =>
    match str_unpack input with
    | none => .error []
    | some (nm, r1) =>
      match read_entries fuel r1 with
      | .error _ => .error []
      | .ok (kids, r2) =>
        match readDirsLoop fuel n r2 with
        | .error older => .error (.dir nm kids :: older)
        | .ok (ds, r3) => .ok (.dir nm kids :: ds, r3)
end

/-- read_entries with enough fuel for any input: one unit of fuel is consumed
    only after consuming at least one byte of input, so length plus one never
    runs out. -/
def read_entriesTop (input : List Nat) : Except (List Node) (List Node × List Nat) :=
  read_entries (input.length + 1) input

mutual
/-- files generator of DirNode, contribution of one child under a path
    prefix: a FileNode yields its (path, size, offset) record; a DirNode
    yields its own children recursively under the extended path. -/
def filesOfNode : Node → List (List Nat) → List (List (List Nat) × Nat × Nat)
  | .file nm sz off, path => [(path ++ [nm], sz, off)]
  | .dir nm kids, path => filesLoop kids (path ++ [nm])
/-- files generator of DirNode over a children list: children visited in
    insertion order, directories recursed into at their position. -/
def filesLoop : List Node → List (List Nat) → List (List (List Nat) × Nat × Nat)
  | [], _ => []
  | c :: rest, path => filesOfNode c path ++ filesLoop rest path
end

mutual
/-- Offset assignment loop of BigFile.from_path on one node: iterates
    self.files in generator order setting node.offset to the accumulator and
    adding node.size, returning the updated node and accumulator. -/
def assignNode : Node → Nat → Node × Nat
  | .file nm sz _, acc => (.file nm sz acc, acc + sz)
  | .dir nm kids, acc =>
    match assignLoop kids acc with
    | (kids2, acc2) => (.dir nm kids2, acc2)
/-- Offset assignment over a children list in insertion order. -/
def assignLoop : List Node → Nat → List Node × Nat
  | [], acc => ([], acc)
  | c :: rest, acc =>
    match assignNode c acc with
    | (c2, acc2) =>
      match assignLoop rest acc2 with
      | (rest2, acc3) => (c2 :: rest2, acc3)
end

/-- Extraction engine: for every file record of the tree, the bytes written
    are buffer[offset : offset + size], with Python slice semantics (a slice
    past the end of the buffer silently truncates; no bounds check exists in
    extract). Returns the (target path, written bytes) list in files order. -/
def extractWrites (cs : List Node) (buffer : List Nat) :
    List (List (List Nat) × List Nat) :=
  (filesLoop cs []).map (fun e => (e.1, (buffer.drop e.2.2).take e.2.1))

/-- Magic string UBI_BF_SIG as latin1 code points. -/
def sigBytes : List Nat := [85, 66, 73, 95, 66, 70, 95, 83, 73, 71]

/-- Preamble bytes written by from_path: packed magic, version 1, empty root
    name. -/
def preambleBytes : Option (List Nat) :=
  match str_pack sigBytes, packU32 1, str_pack [] with
  | some m, some v, some r => some (m ++ v ++ r)
  | _, _, _ => none

/-- Errors of BigFile opening an existing archive. -/
inductive OpenErr where
  | truncatedPreamble
  | notBigFile (magic : List Nat) (version : Nat) (name_root : List Nat)
  | headerError (children : List Node)

/-- BigFile reading constructor: decodes magic, version and root name from the
    mapped buffer, raises ValueError carrying the three decoded values when
    magic is not UBI_BF_SIG or version is not 1 or the root name is nonempty,
    and otherwise decodes the tree; a struct error inside read_entries carries
    the children already added. -/
def openBigFile (input : List Nat) : Except OpenErr (List Node) :=
  match str_unpack input with
  | none => .error .truncatedPreamble
  | some (magic, r1) =>
    match readU32 r1 with
    | none => .error .truncatedPreamble
    | some (version, r2) =>
      match str_unpack r2 with
      | none => .error .truncatedPreamble
      | some (name_root, r3) =>
        if magic != sigBytes || version != 1 || !name_root.isEmpty then
          .error (.notBigFile magic version name_root)
        else
          match read_entriesTop r3 with
          | .error kids => .error (.headerError kids)
          | .ok (kids, _) => .ok kids

mutual
/-- Serialized child order: the on-disk form of a node with every children
    list reordered to all subdirectories first (insertion order kept inside
    each class), the order the codec emits. -/
def dirsFirstNode : Node → Node
  | .file nm sz off => .file nm sz off
  | .dir nm kids => .dir nm (mapDirsPass kids ++ kids.filter isFile)
/-- The DirNode children in insertion order, recursively reordered. -/
def mapDirsPass : List Node → List Node
  | [] => []
  | c :: rest => if isDir c then dirsFirstNode c :: mapDirsPass rest else mapDirsPass rest
end

/-- Children list reordered to subdirectories (recursively reordered) before
    files, both in insertion order. -/
def dirsFirstL (cs : List Node) : List Node := mapDirsPass cs ++ cs.filter isFile

/-- A name round-trips through str_pack then str_unpack exactly when it does
    not end in a null character (rstrip removes every trailing null). -/
def goodName (nm : List Nat) : Bool := nm.getLast? != some 0

mutual
/-- Every name in the subtree round-trips (no name ends in a null). -/
def goodNamesNode : Node → Bool
  | .file nm _ _ => goodName nm
  | .dir nm kids => goodName nm && goodNamesList kids
def goodNamesList : List Node → Bool
  | [] => true
  | c :: rest => goodNamesNode c && goodNamesList rest
end

mutual
/-- Every directory of the subtree has at most 255 DirNode children, the
    bound of the 1-byte subdir count field. -/
def subdirsOkNode : Node → Bool
  | .file _ _ _ => true
  | .dir _ kids => decide (num_subdirs kids ≤ 255) && subdirsOkList kids
def subdirsOkList : List Node → Bool
  | [] => true
  | c :: rest => subdirsOkNode c && subdirsOkList rest
end

mutual
/-- The node with every file size and offset replaced by zero; structure and
    names kept. -/
def stripMetaNode : Node → Node
  | .file nm _ _ => .file nm 0 0
  | .dir nm kids => .dir nm (stripMetaList kids)
def stripMetaList : List Node → List Node
  | [] => []
  | c :: rest => stripMetaNode c :: stripMetaList rest
end

mutual
/-- Total payload size of the subtree: sum of all file sizes. -/
def totalSizeNode : Node → Nat
  | .file _ sz _ => sz
  | .dir _ kids => totalSizeList kids
def totalSizeList : List Node → Nat
  | [] => 0
  | c :: rest => totalSizeNode c + totalSizeList rest
end

mutual
/-- Fuel sufficient for read_entries on the encoding of this node. -/
def fuelNode : Node → Nat
  | .file _ _ _ => 0
  | .dir _ kids => 1 + fuelList kids
/-- Fuel sufficient for readDirsLoop on the encoded subdir entries of this
    children list. -/
def fuelList : List Node → Nat
  | [] => 1
  | c :: rest => if isDir c then 1 + max (fuelNode c) (fuelList rest) else fuelList rest
end

/-- Offsets of a file record list are contiguous from h: first offset h, each
    next offset the previous offset plus the previous size. -/
def contiguousFrom : Nat → List (List (List Nat) × Nat × Nat) → Bool
  | _, [] => true
  | h, e :: rest => decide (e.2.2 = h) && contiguousFrom (h + e.2.1) rest

/-- Sum of the sizes of a file record list. -/
def sumSizes : List (List (List Nat) × Nat × Nat) → Nat
  | [] => 0
  | e :: rest => e.2.1 + sumSizes rest


-- Concrete inputs used by the claim counterexamples and witnesses

/-- Children as BigFile.from_path inserts them: the sorted files of a
    directory are added before its sorted subdirectories. -/
def exChildren : List Node := [.file [98] 3 0, .dir [97] [.file [99] 5 0]]

/-- The example tree after the from_path offset assignment, whose start is
    the computed header length 67. -/
def exPacked : List Node := (assignLoop exChildren 67).1

/-- Header bytes write_entries emits for exPacked. -/
def exHeaderBytes : List Nat :=
  [1, 2, 0, 0, 0, 97, 0, 0, 1, 0, 0, 0, 2, 0, 0, 0, 99, 0, 5, 0, 0, 0, 70, 0, 0, 0,
   1, 0, 0, 0, 2, 0, 0, 0, 98, 0, 3, 0, 0, 0, 67, 0, 0, 0]

/-- Children decoded back from exHeaderBytes. -/
def exDecoded : List Node := [.dir [97] [.file [99] 5 70], .file [98] 3 67]

/-- A header accepted by the decoder whose single file-name field is length 3
    with bytes 97 0 0: the name decodes to [97] after stripping both nulls. -/
def padHeaderBytes : List Nat :=
  [0, 1, 0, 0, 0, 3, 0, 0, 0, 97, 0, 0, 1, 0, 0, 0, 2, 0, 0, 0]

/-- Children decoded from padHeaderBytes. -/
def padDecoded : List Node := [.file [97] 1 2]

/-- A buffer that is a valid preamble (magic UBI_BF_SIG, version 1, empty
    root name) followed by nothing. -/
def validPreambleOnly : List Nat :=
  [11, 0, 0, 0] ++ sigBytes ++ [0] ++ [1, 0, 0, 0] ++ [0, 0, 0, 0]

/-- A buffer whose decoded magic is the one-byte string [119]. -/
def wrongMagicInput : List Nat :=
  [2, 0, 0, 0, 119, 0] ++ [1, 0, 0, 0] ++ [0, 0, 0, 0]

/-- A ten-byte mapped region. -/
def exBuffer : List Nat := [0, 1, 2, 3, 4, 5, 6, 7, 8, 9]

/-- One file record whose offset 8 plus size 5 exceeds the ten-byte buffer. -/
def exOOB : List Node := [.file [102] 5 8]

/-- Header bytes announcing two subdirs where the second subdir entry is
    missing: the first subdir decodes fully and is added, then the stream
    ends. -/
def truncatedInput : List Nat := [2, 0, 0, 0, 0, 0, 0, 0, 0, 0, 0]

/-- Header bytes with one file record whose name field announces 5 bytes but
    only one remains: the string read silently truncates, the following
    size read fails. -/
def truncStringInput : List Nat := [0, 1, 0, 0, 0, 5, 0, 0, 0, 97]

/-- A directory with 256 empty-named subdirectories. -/
def big256 : List Node := List.replicate 256 (.dir [] [])

/-- A single seven-byte file, for the offset-contiguity witness. -/
def cs3 : List Node := [.file [120] 7 0]

-- Primitive codec lemmas

theorem u32le_length (n : Nat) : (u32le n).length = 4 := rfl

theorem readU32_u32le (n : Nat) (rest : List Nat) (h : n < 4294967296) :
    readU32 (u32le n ++ rest) = some (n, rest) := by
  have e : n % 256 + 256 * (n / 256 % 256) + 65536 * (n / 65536 % 256) +
      16777216 * (n / 16777216 % 256) = n := by omega
  simp [u32le, readU32, e]

theorem packU8_eq_some {n : Nat} {bs : List Nat} (h : packU8 n = some bs) :
    bs = [n] ∧ n < 256 := by
  unfold packU8 at h
  split at h
  · exact ⟨(Option.some.injEq _ _ ▸ h).symm, by assumption⟩
  · exact absurd h (by simp)

theorem packU32_eq_some {n : Nat} {bs : List Nat} (h : packU32 n = some bs) :
    bs = u32le n ∧ n < 4294967296 := by
  unfold packU32 at h
  split at h
  · exact ⟨(Option.some.injEq _ _ ▸ h).symm, by assumption⟩
  · exact absurd h (by simp)

theorem str_pack_nil : str_pack [] = some (u32le 0) := rfl

theorem str_pack_eq_some {a : Nat} {t bs : List Nat}
    (h : str_pack (a :: t) = some bs) :
    bs = u32le (t.length + 2) ++ (a :: t) ++ [0] ∧ t.length + 2 < 4294967296 := by
  simp only [str_pack, List.isEmpty_cons, Bool.false_eq_true, if_false, List.length_cons] at h
  split at h
  · rename_i hc
    rw [Bool.and_eq_true, decide_eq_true_iff] at hc
    refine ⟨?_, by omega⟩
    have := (Option.some_inj.mp h).symm
    simpa [Nat.add_assoc] using this
  · simp at h

theorem str_pack_length {s bs : List Nat} (h : str_pack s = some bs) :
    bs.length = 4 + s.length + (if s.isEmpty then 0 else 1) := by
  cases s with
  | nil =>
    rw [str_pack_nil] at h
    have := Option.some_inj.mp h
    simp [← this, u32le]
  | cons a t =>
    obtain ⟨hb, _⟩ := str_pack_eq_some h
    subst hb
    simp [u32le]
    omega

theorem str_pack_length_ge {s bs : List Nat} (h : str_pack s = some bs) :
    4 ≤ bs.length := by
  have := str_pack_length h
  split at this <;> omega

theorem dropWhile_eq_self_of_head {p : Nat → Bool} :
    ∀ l : List Nat, (∀ a, l.head? = some a → p a = false) → l.dropWhile p = l
  | [], _ => rfl
  | a :: t, h => by simp [List.dropWhile_cons, h a rfl]

theorem rstripNulls_append_zero {s : List Nat} (h : goodName s = true) :
    rstripNulls (s ++ [0]) = s := by
  have hg : s.getLast? ≠ some 0 := by simpa [goodName] using h
  rw [List.getLast?_eq_head?_reverse] at hg
  have h2 : s.reverse.dropWhile (fun b => b == 0) = s.reverse := by
    refine dropWhile_eq_self_of_head _ (fun a ha => ?_)
    have : a ≠ 0 := fun e => hg (e ▸ ha)
    simpa using this
  unfold rstripNulls
  simp [List.reverse_append, h2]

theorem str_unpack_prefix {s : List Nat} (rest : List Nat) (L : Nat)
    (hL : L < 4294967296) (hlen : s.length = L) :
    str_unpack (u32le L ++ s ++ rest) = some (rstripNulls s, rest) := by
  rw [List.append_assoc]
  unfold str_unpack
  rw [readU32_u32le _ _ hL]
  show some (rstripNulls (List.take L (s ++ rest)), List.drop L (s ++ rest)) = _
  rw [List.take_left' hlen, List.drop_left' hlen]

theorem str_unpack_str_pack {s bs : List Nat} (rest : List Nat)
    (hp : str_pack s = some bs) (hg : goodName s = true) :
    str_unpack (bs ++ rest) = some (s, rest) := by
  cases s with
  | nil =>
    have hb := Option.some_inj.mp (str_pack_nil ▸ hp)
    have e : bs ++ rest = u32le 0 ++ ([] : List Nat) ++ rest := by
      rw [← hb]
      simp
    rw [e, str_unpack_prefix rest 0 (by omega) (by simp)]
    rfl
  | cons a t =>
    obtain ⟨hb, hlt⟩ := str_pack_eq_some hp
    have e : bs ++ rest = u32le (t.length + 2) ++ ((a :: t) ++ [0]) ++ rest := by
      subst hb
      simp
    rw [e, str_unpack_prefix rest (t.length + 2) (by omega) (by simp),
      rstripNulls_append_zero hg]

theorem str_unpack_isSome {input : List Nat} (h : 4 ≤ input.length) :
    (str_unpack input).isSome = true := by
  match input with
  | [] => simp at h
  | [_] => simp at h
  | [_, _] => simp at h
  | [_, _, _] => simp at h
  | _ :: _ :: _ :: _ :: _ => simp [str_unpack, readU32]

-- Node predicate lemmas

theorem isDir_eq_false_of_isFile {c : Node} (h : isFile c = true) : isDir c = false := by
  cases c <;> simp_all [isFile, isDir]

theorem isFile_eq_false_of_isDir {c : Node} (h : isDir c = true) : isFile c = false := by
  cases c <;> simp_all [isFile, isDir]

theorem isDir_dirsFirstNode (c : Node) : isDir (dirsFirstNode c) = isDir c := by
  cases c <;> simp [dirsFirstNode, isDir]

theorem isFile_dirsFirstNode (c : Node) : isFile (dirsFirstNode c) = isFile c := by
  cases c <;> simp [dirsFirstNode, isFile]

theorem nodeName_dirsFirstNode (c : Node) : nodeName (dirsFirstNode c) = nodeName c := by
  cases c <;> simp [dirsFirstNode, nodeName]

theorem mapDirsPass_all_dirs : ∀ {cs : List Node}, ∀ c ∈ mapDirsPass cs, isDir c = true := by
  intro cs
  induction cs with
  | nil => simp [mapDirsPass]
  | cons c rest ih =>
    intro x hx
    by_cases hc : isDir c
    · simp only [mapDirsPass, hc, if_true, List.mem_cons] at hx
      rcases hx with h | h
      · rw [h, isDir_dirsFirstNode]; exact hc
      · exact ih x h
    · simp only [mapDirsPass, hc] at hx
      simp only [Bool.false_eq_true, if_false] at hx
      exact ih x hx

theorem length_mapDirsPass : ∀ cs : List Node, (mapDirsPass cs).length = num_subdirs cs := by
  intro cs
  induction cs with
  | nil => rfl
  | cons c rest ih =>
    by_cases hc : isDir c <;>
      simp [mapDirsPass, num_subdirs, List.filter_cons, hc] <;>
      simpa [num_subdirs] using ih

-- Write pass structure lemmas

theorem writeDirsPass_append (xs ys : List Node) :
    writeDirsPass (xs ++ ys) =
      match writeDirsPass xs, writeDirsPass ys with
      | some a, some b => some (a ++ b)
      | _, _ => none := by
  induction xs with
  | nil => cases h : writeDirsPass ys <;> simp [writeDirsPass, h]
  | cons c rest ih =>
    by_cases hc : isDir c
    · cases h1 : str_pack (nodeName c) <;> cases h2 : write_entries c <;>
        cases h3 : writeDirsPass rest <;> cases h4 : writeDirsPass ys <;>
        simp [writeDirsPass, hc, h1, h2, h3, h4, ih]
    · simp only [List.cons_append, writeDirsPass, hc, Bool.false_eq_true, if_false]
      exact ih

theorem writeFilesPass_append (xs ys : List Node) :
    writeFilesPass (xs ++ ys) =
      match writeFilesPass xs, writeFilesPass ys with
      | some a, some b => some (a ++ b)
      | _, _ => none := by
  induction xs with
  | nil => cases h : writeFilesPass ys <;> simp [writeFilesPass, h]
  | cons c rest ih =>
    by_cases hc : isFile c
    · cases h1 : str_pack (nodeName c) <;> cases h2 : packU32 (nodeSize c) <;>
        cases h3 : packU32 (nodeOffset c) <;> cases h4 : writeFilesPass rest <;>
        cases h5 : writeFilesPass ys <;>
        simp [writeFilesPass, hc, h1, h2, h3, h4, h5, ih]
    · simp only [List.cons_append, writeFilesPass, hc, Bool.false_eq_true, if_false]
      exact ih

theorem writeDirsPass_no_dirs :
    ∀ cs : List Node, (∀ c ∈ cs, isDir c = false) → writeDirsPass cs = some [] := by
  intro cs
  induction cs with
  | nil => intro _; rfl
  | cons c rest ih =>
    intro h
    have hc := h c (List.mem_cons_self c rest)
    simp only [writeDirsPass, hc, Bool.false_eq_true, if_false]
    exact ih (fun x hx => h x (List.mem_cons_of_mem c hx))

theorem writeFilesPass_no_files :
    ∀ cs : List Node, (∀ c ∈ cs, isFile c = false) → writeFilesPass cs = some [] := by
  intro cs
  induction cs with
  | nil => intro _; rfl
  | cons c rest ih =>
    intro h
    have hc := h c (List.mem_cons_self c rest)
    simp only [writeFilesPass, hc, Bool.false_eq_true, if_false]
    exact ih (fun x hx => h x (List.mem_cons_of_mem c hx))

theorem writeFilesPass_filter :
    ∀ cs : List Node, writeFilesPass (cs.filter isFile) = writeFilesPass cs := by
  intro cs
  induction cs with
  | nil => rfl
  | cons c rest ih =>
    by_cases hc : isFile c
    · simp only [List.filter_cons, hc, if_true, writeFilesPass, ih]
    · simp only [List.filter_cons, hc, Bool.false_eq_true, if_false, writeFilesPass, ih]

theorem num_subdirs_append (xs ys : List Node) :
    num_subdirs (xs ++ ys) = num_subdirs xs + num_subdirs ys := by
  simp [num_subdirs, List.filter_append]

theorem num_files_append (xs ys : List Node) :
    num_files (xs ++ ys) = num_files xs + num_files ys := by
  simp [num_files, List.filter_append]

theorem num_subdirs_no_dirs {cs : List Node} (h : ∀ c ∈ cs, isDir c = false) :
    num_subdirs cs = 0 := by
  simp only [num_subdirs, List.length_eq_zero]
  exact List.filter_eq_nil_iff.mpr (fun c hc => by simp [h c hc])

theorem num_subdirs_all_dirs {cs : List Node} (h : ∀ c ∈ cs, isDir c = true) :
    num_subdirs cs = cs.length := by
  simp only [num_subdirs]
  rw [List.filter_eq_self.mpr h]

theorem num_files_no_files {cs : List Node} (h : ∀ c ∈ cs, isFile c = false) :
    num_files cs = 0 := by
  simp only [num_files, List.length_eq_zero]
  exact List.filter_eq_nil_iff.mpr (fun c hc => by simp [h c hc])

theorem num_subdirs_dirsFirstL (cs : List Node) :
    num_subdirs (dirsFirstL cs) = num_subdirs cs := by
  unfold dirsFirstL
  rw [num_subdirs_append, num_subdirs_all_dirs (fun c hc => mapDirsPass_all_dirs c hc),
    length_mapDirsPass,
    num_subdirs_no_dirs (fun c hc => isDir_eq_false_of_isFile (List.of_mem_filter hc))]
  omega

theorem num_files_dirsFirstL (cs : List Node) :
    num_files (dirsFirstL cs) = num_files cs := by
  unfold dirsFirstL
  rw [num_files_append,
    num_files_no_files (fun c hc => isFile_eq_false_of_isDir (mapDirsPass_all_dirs c hc))]
  simp only [num_files, Nat.zero_add]
  rw [List.filter_eq_self.mpr (fun c hc => List.of_mem_filter hc)]

mutual
theorem write_entries_dirsFirstNode : ∀ c : Node, write_entries (dirsFirstNode c) = write_entries c
  | .file _ _ _ => rfl
  | .dir nm kids => by
    have hm := writeDirsPass_mapDirsPass kids
    have hfil : writeDirsPass (kids.filter isFile) = some [] :=
      writeDirsPass_no_dirs _ (fun c hc => isDir_eq_false_of_isFile (List.of_mem_filter hc))
    have happ := writeDirsPass_append (mapDirsPass kids) (kids.filter isFile)
    rw [hfil, hm] at happ
    show write_entries (.dir nm (mapDirsPass kids ++ kids.filter isFile)) = _
    simp only [write_entries]
    rw [show mapDirsPass kids ++ kids.filter isFile = dirsFirstL kids from rfl] at happ ⊢
    rw [num_subdirs_dirsFirstL, num_files_dirsFirstL, happ]
    have hw : writeFilesPass (dirsFirstL kids) = writeFilesPass kids := by
      unfold dirsFirstL
      rw [writeFilesPass_append,
        writeFilesPass_no_files _ (fun c hc => isFile_eq_false_of_isDir (mapDirsPass_all_dirs c hc)),
        writeFilesPass_filter]
      cases writeFilesPass kids <;> simp
    rw [hw]
    cases writeDirsPass kids <;> simp
  termination_by c => sizeOf c
theorem writeDirsPass_mapDirsPass : ∀ cs : List Node, writeDirsPass (mapDirsPass cs) = writeDirsPass cs
  | [] => rfl
  | c :: rest => by
    by_cases hc : isDir c
    · have h1 := write_entries_dirsFirstNode c
      have h2 := writeDirsPass_mapDirsPass rest
      simp only [mapDirsPass, hc, if_true, writeDirsPass, isDir_dirsFirstNode,
        nodeName_dirsFirstNode, h1, h2]
    · have h2 := writeDirsPass_mapDirsPass rest
      simp only [mapDirsPass, hc, Bool.false_eq_true, if_false, writeDirsPass, h2]
  termination_by cs => sizeOf cs
end

theorem writeDirsPass_dirsFirstL (cs : List Node) :
    writeDirsPass (dirsFirstL cs) = writeDirsPass cs := by
  unfold dirsFirstL
  rw [writeDirsPass_append,
    writeDirsPass_no_dirs _ (fun c hc => isDir_eq_false_of_isFile (List.of_mem_filter hc)),
    writeDirsPass_mapDirsPass]
  cases writeDirsPass cs <;> simp

-- Count unfolding helpers

theorem num_subdirs_cons_dir {c : Node} {rest : List Node} (h : isDir c = true) :
    num_subdirs (c :: rest) = num_subdirs rest + 1 := by
  simp [num_subdirs, List.filter_cons, h]

theorem num_subdirs_cons_not {c : Node} {rest : List Node} (h : isDir c = false) :
    num_subdirs (c :: rest) = num_subdirs rest := by
  simp [num_subdirs, List.filter_cons, h]

theorem num_files_cons_file {c : Node} {rest : List Node} (h : isFile c = true) :
    num_files (c :: rest) = num_files rest + 1 := by
  simp [num_files, List.filter_cons, h]

theorem num_files_cons_not {c : Node} {rest : List Node} (h : isFile c = false) :
    num_files (c :: rest) = num_files rest := by
  simp [num_files, List.filter_cons, h]

-- Decode of encode: file records

theorem read_write_files :
    ∀ (cs : List Node) (fb r : List Nat), goodNamesList cs = true →
      writeFilesPass cs = some fb →
      readFilesLoop (num_files cs) (fb ++ r) = .ok (cs.filter isFile, r) := by
  intro cs
  induction cs with
  | nil =>
    intro fb r _ hw
    have : fb = [] := by simpa [writeFilesPass] using hw.symm
    subst this
    simp [num_files, readFilesLoop, List.filter_nil]
  | cons c rest0 ih =>
    intro fb r hg hw
    rw [goodNamesList, Bool.and_eq_true] at hg
    obtain ⟨hg1, hg2⟩ := hg
    by_cases hc : isFile c
    · cases c with
      | dir nm kids => simp [isFile] at hc
      | file nm sz off =>
        rw [writeFilesPass, if_pos hc] at hw
        cases h1 : str_pack (nodeName (Node.file nm sz off)) with
        | none => rw [h1] at hw; simp at hw
        | some nb =>
        rw [h1] at hw
        cases h2 : packU32 (nodeSize (Node.file nm sz off)) with
        | none => rw [h2] at hw; simp at hw
        | some sb =>
        rw [h2] at hw
        cases h3 : packU32 (nodeOffset (Node.file nm sz off)) with
        | none => rw [h3] at hw; simp at hw
        | some ob =>
        rw [h3] at hw
        cases h4 : writeFilesPass rest0 with
        | none => rw [h4] at hw; simp at hw
        | some rb =>
        rw [h4] at hw
        have hfb : fb = nb ++ sb ++ ob ++ rb := (Option.some_inj.mp hw).symm
        subst hfb
        obtain ⟨hsb, hszlt⟩ := packU32_eq_some h2
        obtain ⟨hob, hofflt⟩ := packU32_eq_some h3
        subst hsb; subst hob
        have hgood : goodName nm = true := by simpa [goodNamesNode] using hg1
        have e : (nb ++ u32le (nodeSize (Node.file nm sz off)) ++
            u32le (nodeOffset (Node.file nm sz off)) ++ rb) ++ r =
            nb ++ (u32le sz ++ (u32le off ++ (rb ++ r))) := by
          simp [nodeSize, nodeOffset]
        rw [num_files_cons_file hc, e]
        rw [readFilesLoop]
        rw [str_unpack_str_pack _ h1 (by simpa [nodeName] using hgood)]
        show (match readU32 (u32le sz ++ (u32le off ++ (rb ++ r))) with
          | none => Except.error []
          | some (sz2, r2) =>
            match readU32 r2 with
            | none => Except.error []
            | some (off2, r3) =>
              match readFilesLoop (num_files rest0) r3 with
              | Except.error older => Except.error (Node.file nm sz2 off2 :: older)
              | Except.ok (fs, r4) => Except.ok (Node.file nm sz2 off2 :: fs, r4)) = _
        rw [readU32_u32le _ _ (by simpa [nodeSize] using hszlt)]
        show (match readU32 (u32le off ++ (rb ++ r)) with
          | none => Except.error []
          | some (off2, r3) =>
            match readFilesLoop (num_files rest0) r3 with
            | Except.error older => Except.error (Node.file nm sz off2 :: older)
            | Except.ok (fs, r4) => Except.ok (Node.file nm sz off2 :: fs, r4)) = _
        rw [readU32_u32le _ _ (by simpa [nodeOffset] using hofflt)]
        show (match readFilesLoop (num_files rest0) (rb ++ r) with
          | Except.error older => Except.error (Node.file nm sz off :: older)
          | Except.ok (fs, r4) => Except.ok (Node.file nm sz off :: fs, r4)) = _
        rw [ih rb r hg2 h4]
        simp [List.filter_cons, hc]
    · have hcd : isFile c = false := by simpa using hc
      rw [writeFilesPass, if_neg (by simp [hcd])] at hw
      rw [num_files_cons_not hcd]
      rw [List.filter_cons, hcd]
      simp only [Bool.false_eq_true, if_false]
      exact ih fb r hg2 hw

mutual
theorem read_write_node (nm : List Nat) (kids : List Node) (fuel : Nat)
    (eb rest : List Nat) (hg : goodNamesList kids = true)
    (hw : write_entries (.dir nm kids) = some eb)
    (hf : fuelNode (.dir nm kids) ≤ fuel) :
    read_entries fuel (eb ++ rest) = .ok (dirsFirstL kids, rest) := by
  rw [write_entries] at hw
  cases hcb : packU8 (num_subdirs kids) with
  | none => rw [hcb] at hw; simp at hw
  | some cb =>
  rw [hcb] at hw
  cases hdb : writeDirsPass kids with
  | none => rw [hdb] at hw; simp at hw
  | some db =>
  rw [hdb] at hw
  cases hnf : packU32 (num_files kids) with
  | none => rw [hnf] at hw; simp at hw
  | some nf =>
  rw [hnf] at hw
  cases hfb : writeFilesPass kids with
  | none => rw [hfb] at hw; simp at hw
  | some fb =>
  rw [hfb] at hw
  have heb : eb = cb ++ db ++ nf ++ fb := (Option.some_inj.mp hw).symm
  obtain ⟨hcb2, hcblt⟩ := packU8_eq_some hcb
  obtain ⟨hnf2, hnflt⟩ := packU32_eq_some hnf
  rw [fuelNode] at hf
  cases fuel with
  | zero => omega
  | succ f =>
  have e : eb ++ rest =
      num_subdirs kids :: (db ++ (u32le (num_files kids) ++ (fb ++ rest))) := by
    subst heb; subst hcb2; subst hnf2; simp
  rw [e, read_entries]
  show (match readU8 (num_subdirs kids :: (db ++ (u32le (num_files kids) ++ (fb ++ rest)))) with
    | none => Except.error []
    | some (num_dirs, r1) =>
      match readDirsLoop f num_dirs r1 with
      | Except.error kids2 => Except.error kids2
      | Except.ok (ds, r2) =>
        match readU32 r2 with
        | none => Except.error ds
        | some (nf2, r3) =>
          match readFilesLoop nf2 r3 with
          | Except.error fs0 => Except.error (ds ++ fs0)
          | Except.ok (fs1, r4) => Except.ok (ds ++ fs1, r4)) = _
  rw [show readU8 (num_subdirs kids :: (db ++ (u32le (num_files kids) ++ (fb ++ rest)))) =
    some (num_subdirs kids, db ++ (u32le (num_files kids) ++ (fb ++ rest))) from rfl]
  show (match readDirsLoop f (num_subdirs kids) (db ++ (u32le (num_files kids) ++ (fb ++ rest))) with
    | Except.error kids2 => Except.error kids2
    | Except.ok (ds, r2) =>
      match readU32 r2 with
      | none => Except.error ds
      | some (nf2, r3) =>
        match readFilesLoop nf2 r3 with
        | Except.error fs0 => Except.error (ds ++ fs0)
        | Except.ok (fs1, r4) => Except.ok (ds ++ fs1, r4)) = _
  rw [read_write_loop kids f db (u32le (num_files kids) ++ (fb ++ rest)) hg hdb (by omega)]
  show (match readU32 (u32le (num_files kids) ++ (fb ++ rest)) with
    | none => Except.error (mapDirsPass kids)
    | some (nf2, r3) =>
      match readFilesLoop nf2 r3 with
      | Except.error fs0 => Except.error (mapDirsPass kids ++ fs0)
      | Except.ok (fs1, r4) => Except.ok (mapDirsPass kids ++ fs1, r4)) = _
  rw [readU32_u32le _ _ hnflt]
  show (match readFilesLoop (num_files kids) (fb ++ rest) with
    | Except.error fs0 => Except.error (mapDirsPass kids ++ fs0)
    | Except.ok (fs1, r4) => Except.ok (mapDirsPass kids ++ fs1, r4)) = _
  rw [read_write_files kids fb rest hg hfb]
  rfl
  termination_by sizeOf kids + 1

theorem read_write_loop (cs : List Node) (fuel : Nat) (db r : List Nat)
    (hg : goodNamesList cs = true) (hw : writeDirsPass cs = some db)
    (hf : fuelList cs ≤ fuel) :
    readDirsLoop fuel (num_subdirs cs) (db ++ r) = .ok (mapDirsPass cs, r) := by
  cases cs with
  | nil =>
    have hdb : db = [] := by simpa [writeDirsPass] using hw.symm
    subst hdb
    rw [fuelList] at hf
    cases fuel with
    | zero => omega
    | succ f => simp [num_subdirs, readDirsLoop, mapDirsPass]
  | cons c rest0 =>
    rw [goodNamesList, Bool.and_eq_true] at hg
    obtain ⟨hg1, hg2⟩ := hg
    by_cases hc : isDir c
    · cases c with
      | file nm sz off => simp [isDir] at hc
      | dir nm0 kids0 =>
        rw [writeDirsPass, if_pos hc] at hw
        cases h1 : str_pack (nodeName (Node.dir nm0 kids0)) with
        | none => rw [h1] at hw; simp at hw
        | some nb =>
        rw [h1] at hw
        cases h2 : write_entries (Node.dir nm0 kids0) with
        | none => rw [h2] at hw; simp at hw
        | some eb =>
        rw [h2] at hw
        cases h3 : writeDirsPass rest0 with
        | none => rw [h3] at hw; simp at hw
        | some rb =>
        rw [h3] at hw
        have hdb : db = nb ++ eb ++ rb := (Option.some_inj.mp hw).symm
        rw [fuelList, if_pos hc] at hf
        cases fuel with
        | zero => omega
        | succ f =>
        rw [goodNamesNode, Bool.and_eq_true] at hg1
        obtain ⟨hgnm, hgkids⟩ := hg1
        have e : db ++ r = nb ++ (eb ++ (rb ++ r)) := by subst hdb; simp
        rw [num_subdirs_cons_dir hc, e, readDirsLoop]
        rw [str_unpack_str_pack _ h1 (by simpa [nodeName] using hgnm)]
        show (match read_entries f (eb ++ (rb ++ r)) with
          | Except.error _ => Except.error []
          | Except.ok (kids, r2) =>
            match readDirsLoop f (num_subdirs rest0) r2 with
            | Except.error older => Except.error (Node.dir (nodeName (Node.dir nm0 kids0)) kids :: older)
            | Except.ok (ds, r3) => Except.ok (Node.dir (nodeName (Node.dir nm0 kids0)) kids :: ds, r3)) = _
        rw [read_write_node nm0 kids0 f eb (rb ++ r) hgkids h2
          (by have := Nat.max_le.mp (by omega : max (fuelNode (Node.dir nm0 kids0)) (fuelList rest0) ≤ f); exact this.1)]
        show (match readDirsLoop f (num_subdirs rest0) (rb ++ r) with
          | Except.error older => Except.error (Node.dir (nodeName (Node.dir nm0 kids0)) (dirsFirstL kids0) :: older)
          | Except.ok (ds, r3) => Except.ok (Node.dir (nodeName (Node.dir nm0 kids0)) (dirsFirstL kids0) :: ds, r3)) = _
        rw [read_write_loop rest0 f rb r hg2 h3
          (by have := Nat.max_le.mp (by omega : max (fuelNode (Node.dir nm0 kids0)) (fuelList rest0) ≤ f); exact this.2)]
        show Except.ok (Node.dir nm0 (dirsFirstL kids0) :: mapDirsPass rest0, r) =
          Except.ok (mapDirsPass (Node.dir nm0 kids0 :: rest0), r)
        rw [show mapDirsPass (Node.dir nm0 kids0 :: rest0) =
          dirsFirstNode (Node.dir nm0 kids0) :: mapDirsPass rest0 by
            rw [mapDirsPass, if_pos hc]]
        rfl
    · have hcd : isDir c = false := by simpa using hc
      rw [writeDirsPass, if_neg (by simp [hcd])] at hw
      rw [fuelList, if_neg (by simp [hcd])] at hf
      rw [num_subdirs_cons_not hcd]
      rw [show mapDirsPass (c :: rest0) = mapDirsPass rest0 by
        rw [mapDirsPass, if_neg (by simp [hcd])]]
      exact read_write_loop rest0 fuel db r hg2 hw hf
  termination_by sizeOf cs
end

mutual
theorem fuelNode_le (c : Node) (eb : List Nat) (hw : write_entries c = some eb) :
    fuelNode c ≤ eb.length := by
  cases c with
  | file nm sz off => rw [write_entries] at hw; exact absurd hw (by simp)
  | dir nm kids =>
    rw [write_entries] at hw
    cases hcb : packU8 (num_subdirs kids) with
    | none => rw [hcb] at hw; simp at hw
    | some cb =>
    rw [hcb] at hw
    cases hdb : writeDirsPass kids with
    | none => rw [hdb] at hw; simp at hw
    | some db =>
    rw [hdb] at hw
    cases hnf : packU32 (num_files kids) with
    | none => rw [hnf] at hw; simp at hw
    | some nf =>
    rw [hnf] at hw
    cases hfb : writeFilesPass kids with
    | none => rw [hfb] at hw; simp at hw
    | some fb =>
    rw [hfb] at hw
    have heb : eb = cb ++ db ++ nf ++ fb := (Option.some_inj.mp hw).symm
    obtain ⟨hcb2, _⟩ := packU8_eq_some hcb
    obtain ⟨hnf2, _⟩ := packU32_eq_some hnf
    have hlen : eb.length = 1 + db.length + 4 + fb.length := by
      subst heb; subst hcb2; subst hnf2; simp [u32le]; omega
    have hfl := fuelList_le kids db hdb
    rw [fuelNode]
    omega
  termination_by sizeOf c

theorem fuelList_le (cs : List Node) (db : List Nat) (hw : writeDirsPass cs = some db) :
    fuelList cs ≤ db.length + 1 := by
  cases cs with
  | nil => rw [fuelList]; omega
  | cons c rest0 =>
    by_cases hc : isDir c
    · rw [writeDirsPass, if_pos hc] at hw
      cases h1 : str_pack (nodeName c) with
      | none => rw [h1] at hw; simp at hw
      | some nb =>
      rw [h1] at hw
      cases h2 : write_entries c with
      | none => rw [h2] at hw; simp at hw
      | some eb =>
      rw [h2] at hw
      cases h3 : writeDirsPass rest0 with
      | none => rw [h3] at hw; simp at hw
      | some rb =>
      rw [h3] at hw
      have hdb : db = nb ++ eb ++ rb := (Option.some_inj.mp hw).symm
      have hnb := str_pack_length_ge h1
      have hn := fuelNode_le c eb h2
      have hr := fuelList_le rest0 rb h3
      have hlen : db.length = nb.length + eb.length + rb.length := by
        subst hdb; simp only [List.length_append]
      rw [fuelList, if_pos hc]
      have : max (fuelNode c) (fuelList rest0) ≤ eb.length + rb.length + 1 :=
        Nat.max_le.mpr ⟨by omega, by omega⟩
      omega
    · rw [writeDirsPass, if_neg (by simpa using hc)] at hw
      rw [fuelList, if_neg (by simpa using hc)]
      exact fuelList_le rest0 db hw
  termination_by sizeOf cs
end

/-- Decode of encode with the standard fuel: the children decoded from the
    bytes write_entries emitted are the dirs-first reordering of the original
    children, with no bytes left over. -/
theorem read_write_top (nm : List Nat) (cs : List Node) (bs : List Nat)
    (hg : goodNamesList cs = true) (hw : write_entries (.dir nm cs) = some bs) :
    read_entriesTop bs = .ok (dirsFirstL cs, []) := by
  have h1 := fuelNode_le (.dir nm cs) bs hw
  have h2 := read_write_node nm cs (bs.length + 1) bs [] hg hw (by omega)
  rw [read_entriesTop]
  simpa using h2

-- files enumeration of the dirs-first reordering is a permutation

theorem filesLoop_append (xs ys : List Node) (path : List (List Nat)) :
    filesLoop (xs ++ ys) path = filesLoop xs path ++ filesLoop ys path := by
  induction xs with
  | nil => simp [filesLoop]
  | cons c rest ih => simp [filesLoop, ih]

mutual
theorem filesOfNode_dirsFirst (c : Node) (path : List (List Nat)) :
    (filesOfNode (dirsFirstNode c) path).Perm (filesOfNode c path) := by
  cases c with
  | file nm sz off => exact List.Perm.refl _
  | dir nm kids =>
    show (filesLoop (mapDirsPass kids ++ kids.filter isFile) (path ++ [nm])).Perm
      (filesLoop kids (path ++ [nm]))
    rw [filesLoop_append]
    exact filesLoop_dirsFirst kids (path ++ [nm])
  termination_by sizeOf c

theorem filesLoop_dirsFirst (cs : List Node) (path : List (List Nat)) :
    (filesLoop (mapDirsPass cs) path ++ filesLoop (cs.filter isFile) path).Perm
      (filesLoop cs path) := by
  cases cs with
  | nil => simp [mapDirsPass, filesLoop]
  | cons c rest0 =>
    by_cases hc : isDir c
    · have hcf : isFile c = false := isFile_eq_false_of_isDir hc
      rw [show mapDirsPass (c :: rest0) = dirsFirstNode c :: mapDirsPass rest0 by
        rw [mapDirsPass, if_pos hc]]
      rw [List.filter_cons, hcf]
      simp only [Bool.false_eq_true, if_false]
      rw [filesLoop, filesLoop, List.append_assoc]
      exact ((filesOfNode_dirsFirst c path).append (filesLoop_dirsFirst rest0 path))
    · have hcf : isFile c = true := by cases c <;> simp_all [isDir, isFile]
      rw [show mapDirsPass (c :: rest0) = mapDirsPass rest0 by
        rw [mapDirsPass, if_neg (by simpa using hc)]]
      rw [List.filter_cons, hcf]
      simp only [if_true]
      rw [filesLoop, filesLoop]
      exact (List.perm_append_comm_assoc _ _ _).trans
        ((filesLoop_dirsFirst rest0 path).append_left (filesOfNode c path))
  termination_by sizeOf cs
end

-- size_header computes the write_entries byte count

theorem size_files_pass (cs : List Node) (s : Nat) (fb : List Nat)
    (hw : writeFilesPass cs = some fb) : sizeFilesPass cs s = some (s + fb.length) := by
  induction cs generalizing s fb with
  | nil =>
    have : fb = [] := by simpa [writeFilesPass] using hw.symm
    subst this
    simp [sizeFilesPass]
  | cons c rest0 ih =>
    by_cases hc : isFile c
    · rw [writeFilesPass, if_pos hc] at hw
      cases h1 : str_pack (nodeName c) with
      | none => rw [h1] at hw; simp at hw
      | some nb =>
      rw [h1] at hw
      cases h2 : packU32 (nodeSize c) with
      | none => rw [h2] at hw; simp at hw
      | some sb =>
      rw [h2] at hw
      cases h3 : packU32 (nodeOffset c) with
      | none => rw [h3] at hw; simp at hw
      | some ob =>
      rw [h3] at hw
      cases h4 : writeFilesPass rest0 with
      | none => rw [h4] at hw; simp at hw
      | some rb =>
      rw [h4] at hw
      have hfb : fb = nb ++ sb ++ ob ++ rb := (Option.some_inj.mp hw).symm
      obtain ⟨hsb, _⟩ := packU32_eq_some h2
      obtain ⟨hob, _⟩ := packU32_eq_some h3
      rw [sizeFilesPass, if_pos hc, h1]
      show sizeFilesPass rest0 (s + nb.length + 4 + 4) = some (s + fb.length)
      rw [ih _ _ h4]
      have : s + nb.length + 4 + 4 + rb.length = s + fb.length := by
        subst hfb; subst hsb; subst hob
        simp only [List.length_append, u32le_length]
        omega
      rw [this]
    · rw [writeFilesPass, if_neg (by simpa using hc)] at hw
      rw [sizeFilesPass, if_neg (by simpa using hc)]
      exact ih _ _ hw

mutual
theorem size_write_node (nm : List Nat) (kids : List Node) (s : Nat) (eb nb : List Nat)
    (hw : write_entries (.dir nm kids) = some eb) (hnb : str_pack nm = some nb) :
    size_header (.dir nm kids) s = some (s + nb.length + eb.length) := by
  rw [write_entries] at hw
  cases hcb : packU8 (num_subdirs kids) with
  | none => rw [hcb] at hw; simp at hw
  | some cb =>
  rw [hcb] at hw
  cases hdb : writeDirsPass kids with
  | none => rw [hdb] at hw; simp at hw
  | some db =>
  rw [hdb] at hw
  cases hnf : packU32 (num_files kids) with
  | none => rw [hnf] at hw; simp at hw
  | some nf =>
  rw [hnf] at hw
  cases hfb : writeFilesPass kids with
  | none => rw [hfb] at hw; simp at hw
  | some fb =>
  rw [hfb] at hw
  have heb : eb = cb ++ db ++ nf ++ fb := (Option.some_inj.mp hw).symm
  obtain ⟨hcb2, _⟩ := packU8_eq_some hcb
  obtain ⟨hnf2, _⟩ := packU32_eq_some hnf
  have hlen : eb.length = 1 + db.length + 4 + fb.length := by
    subst heb; subst hcb2; subst hnf2
    simp only [List.length_append, List.length_cons, List.length_nil, u32le_length]
    try omega
  rw [size_header, hnb]
  show (match sizeDirsPass kids (s + nb.length + 1) with
    | none => none
    | some s2 => sizeFilesPass kids (s2 + 4)) = some (s + nb.length + eb.length)
  rw [size_write_loop kids (s + nb.length + 1) db hdb]
  show sizeFilesPass kids (s + nb.length + 1 + db.length + 4) = some (s + nb.length + eb.length)
  rw [size_files_pass kids _ fb hfb]
  have : s + nb.length + 1 + db.length + 4 + fb.length = s + nb.length + eb.length := by omega
  rw [this]
  termination_by sizeOf kids + 1

theorem size_write_loop (cs : List Node) (s : Nat) (db : List Nat)
    (hw : writeDirsPass cs = some db) : sizeDirsPass cs s = some (s + db.length) := by
  cases cs with
  | nil =>
    have : db = [] := by simpa [writeDirsPass] using hw.symm
    subst this
    simp [sizeDirsPass]
  | cons c rest0 =>
    by_cases hc : isDir c
    · cases c with
      | file nm sz off => simp [isDir] at hc
      | dir nm0 kids0 =>
        rw [writeDirsPass, if_pos hc] at hw
        cases h1 : str_pack (nodeName (Node.dir nm0 kids0)) with
        | none => rw [h1] at hw; simp at hw
        | some nb =>
        rw [h1] at hw
        cases h2 : write_entries (Node.dir nm0 kids0) with
        | none => rw [h2] at hw; simp at hw
        | some eb =>
        rw [h2] at hw
        cases h3 : writeDirsPass rest0 with
        | none => rw [h3] at hw; simp at hw
        | some rb =>
        rw [h3] at hw
        have hdb : db = nb ++ eb ++ rb := (Option.some_inj.mp hw).symm
        rw [sizeDirsPass, if_pos hc,
          size_write_node nm0 kids0 s eb nb h2 (by simpa [nodeName] using h1)]
        show sizeDirsPass rest0 (s + nb.length + eb.length) = some (s + db.length)
        rw [size_write_loop rest0 _ rb h3]
        have : s + nb.length + eb.length + rb.length = s + db.length := by
          subst hdb
          simp only [List.length_append]
          omega
        rw [this]
    · rw [writeDirsPass, if_neg (by simpa using hc)] at hw
      rw [sizeDirsPass, if_neg (by simpa using hc)]
      exact size_write_loop rest0 s db hw
  termination_by sizeOf cs
end

-- size_header ignores file sizes and offsets

theorem nodeName_stripMetaNode (c : Node) : nodeName (stripMetaNode c) = nodeName c := by
  cases c <;> rfl

theorem isDir_stripMetaNode (c : Node) : isDir (stripMetaNode c) = isDir c := by
  cases c <;> rfl

theorem isFile_stripMetaNode (c : Node) : isFile (stripMetaNode c) = isFile c := by
  cases c <;> rfl

theorem sizeFilesPass_stripMeta (cs : List Node) (s : Nat) :
    sizeFilesPass (stripMetaList cs) s = sizeFilesPass cs s := by
  induction cs generalizing s with
  | nil => rfl
  | cons c rest0 ih =>
    rw [stripMetaList]
    by_cases hc : isFile c
    · rw [sizeFilesPass, if_pos (by rw [isFile_stripMetaNode]; exact hc),
        sizeFilesPass, if_pos hc, nodeName_stripMetaNode]
      cases str_pack (nodeName c) <;> simp [ih]
    · rw [sizeFilesPass, if_neg (by rw [isFile_stripMetaNode]; simpa using hc),
        sizeFilesPass, if_neg (by simpa using hc)]
      exact ih s

mutual
theorem size_header_stripMeta (c : Node) (s : Nat) :
    size_header (stripMetaNode c) s = size_header c s := by
  cases c with
  | file nm sz off => rfl
  | dir nm kids =>
    show size_header (.dir nm (stripMetaList kids)) s = _
    rw [size_header, size_header]
    cases str_pack nm with
    | none => rfl
    | some nb =>
      show (match sizeDirsPass (stripMetaList kids) (s + nb.length + 1) with
          | none => none
          | some s2 => sizeFilesPass (stripMetaList kids) (s2 + 4)) =
        (match sizeDirsPass kids (s + nb.length + 1) with
          | none => none
          | some s2 => sizeFilesPass kids (s2 + 4))
      rw [sizeDirsPass_stripMeta kids]
      cases sizeDirsPass kids (s + nb.length + 1) with
      | none => rfl
      | some s2 => exact sizeFilesPass_stripMeta kids (s2 + 4)
  termination_by sizeOf c

theorem sizeDirsPass_stripMeta (cs : List Node) :
    ∀ s : Nat, sizeDirsPass (stripMetaList cs) s = sizeDirsPass cs s := by
  intro s
  cases cs with
  | nil => rfl
  | cons c rest0 =>
    rw [stripMetaList]
    by_cases hc : isDir c
    · rw [sizeDirsPass, if_pos (by rw [isDir_stripMetaNode]; exact hc),
        sizeDirsPass, if_pos hc, size_header_stripMeta c s]
      show (match size_header c s with
          | none => none
          | some s2 => sizeDirsPass (stripMetaList rest0) s2) =
        (match size_header c s with
          | none => none
          | some s2 => sizeDirsPass rest0 s2)
      cases size_header c s with
      | none => rfl
      | some s2 => exact sizeDirsPass_stripMeta rest0 s2
    · rw [sizeDirsPass, if_neg (by rw [isDir_stripMetaNode]; simpa using hc),
        sizeDirsPass, if_neg (by simpa using hc)]
      exact sizeDirsPass_stripMeta rest0 s
  termination_by sizeOf cs
end

-- write_entries success forces every subdir count below 256

mutual
theorem subdirsOk_of_write_node (c : Node) (eb : List Nat)
    (hw : write_entries c = some eb) : subdirsOkNode c = true := by
  cases c with
  | file nm sz off => rfl
  | dir nm kids =>
    rw [write_entries] at hw
    cases hcb : packU8 (num_subdirs kids) with
    | none => rw [hcb] at hw; simp at hw
    | some cb =>
    rw [hcb] at hw
    cases hdb : writeDirsPass kids with
    | none => rw [hdb] at hw; simp at hw
    | some db =>
    obtain ⟨_, hlt⟩ := packU8_eq_some hcb
    rw [subdirsOkNode, Bool.and_eq_true]
    exact ⟨decide_eq_true_eq.mpr (by omega), subdirsOk_of_write_loop kids db hdb⟩
  termination_by sizeOf c

theorem subdirsOk_of_write_loop (cs : List Node) (db : List Nat)
    (hw : writeDirsPass cs = some db) : subdirsOkList cs = true := by
  cases cs with
  | nil => rfl
  | cons c rest0 =>
    by_cases hc : isDir c
    · rw [writeDirsPass, if_pos hc] at hw
      cases h1 : str_pack (nodeName c) with
      | none => rw [h1] at hw; simp at hw
      | some nb =>
      rw [h1] at hw
      cases h2 : write_entries c with
      | none => rw [h2] at hw; simp at hw
      | some eb =>
      rw [h2] at hw
      cases h3 : writeDirsPass rest0 with
      | none => rw [h3] at hw; simp at hw
      | some rb =>
      rw [subdirsOkList, Bool.and_eq_true]
      exact ⟨subdirsOk_of_write_node c eb h2, subdirsOk_of_write_loop rest0 rb h3⟩
    · rw [writeDirsPass, if_neg (by simpa using hc)] at hw
      rw [subdirsOkList, Bool.and_eq_true]
      refine ⟨?_, subdirsOk_of_write_loop rest0 db hw⟩
      cases c with
      | file nm sz off => rfl
      | dir nm kids => simp [isDir] at hc
  termination_by sizeOf cs
end

-- Offset assignment yields contiguous, sorted, non-overlapping file records

theorem sumSizes_append (a b : List (List (List Nat) × Nat × Nat)) :
    sumSizes (a ++ b) = sumSizes a + sumSizes b := by
  induction a with
  | nil => simp [sumSizes]
  | cons e rest ih => simp [sumSizes, ih]; omega

theorem contiguousFrom_append {h : Nat} {a b : List (List (List Nat) × Nat × Nat)}
    (ha : contiguousFrom h a = true) (hb : contiguousFrom (h + sumSizes a) b = true) :
    contiguousFrom h (a ++ b) = true := by
  induction a generalizing h with
  | nil =>
    simpa [sumSizes] using hb
  | cons e rest ih =>
    rw [contiguousFrom, Bool.and_eq_true] at ha
    obtain ⟨he, hrest⟩ := ha
    rw [List.cons_append, contiguousFrom, Bool.and_eq_true]
    refine ⟨he, ih hrest ?_⟩
    have : h + e.2.1 + sumSizes rest = h + sumSizes (e :: rest) := by
      simp [sumSizes]; omega
    rw [this]
    exact hb

mutual
theorem assign_node_spec (c : Node) (acc : Nat) (path : List (List Nat)) :
    contiguousFrom acc (filesOfNode (assignNode c acc).1 path) = true ∧
    (assignNode c acc).2 = acc + totalSizeNode c ∧
    sumSizes (filesOfNode (assignNode c acc).1 path) = totalSizeNode c := by
  cases c with
  | file nm sz off =>
    refine ⟨?_, rfl, ?_⟩ <;> simp [assignNode, filesOfNode, contiguousFrom,
      sumSizes, totalSizeNode]
  | dir nm kids =>
    rcases hL : assignLoop kids acc with ⟨kids2, acc2⟩
    have hspec := assign_loop_spec kids acc (path ++ [nm])
    rw [hL] at hspec
    refine ⟨?_, ?_, ?_⟩
    · show contiguousFrom acc (filesOfNode (assignNode (.dir nm kids) acc).1 path) = true
      rw [assignNode, hL]
      exact hspec.1
    · rw [assignNode, hL]
      exact hspec.2.1
    · rw [assignNode, hL]
      exact hspec.2.2
  termination_by sizeOf c

theorem assign_loop_spec (cs : List Node) (acc : Nat) (path : List (List Nat)) :
    contiguousFrom acc (filesLoop (assignLoop cs acc).1 path) = true ∧
    (assignLoop cs acc).2 = acc + totalSizeList cs ∧
    sumSizes (filesLoop (assignLoop cs acc).1 path) = totalSizeList cs := by
  cases cs with
  | nil => refine ⟨rfl, rfl, rfl⟩
  | cons c rest0 =>
    rcases hN : assignNode c acc with ⟨c2, acc2⟩
    rcases hR : assignLoop rest0 acc2 with ⟨rest2, acc3⟩
    have hns := assign_node_spec c acc path
    rw [hN] at hns
    have hrs := assign_loop_spec rest0 acc2 path
    rw [hR] at hrs
    have hacc2 : acc2 = acc + totalSizeNode c := hns.2.1
    have heq : assignLoop (c :: rest0) acc = (c2 :: rest2, acc3) := by
      rw [assignLoop, hN]
      show (match assignLoop rest0 acc2 with
        | (rest2, acc3) => (c2 :: rest2, acc3)) = (c2 :: rest2, acc3)
      rw [hR]
    rw [heq]
    refine ⟨?_, ?_, ?_⟩
    · rw [filesLoop]
      refine contiguousFrom_append hns.1 ?_
      rw [hns.2.2, ← hacc2]
      exact hrs.1
    · rw [hrs.2.1, hacc2, totalSizeList]
      omega
    · rw [filesLoop, sumSizes_append, hns.2.2, hrs.2.2, totalSizeList]
  termination_by sizeOf cs
end

theorem contiguous_pairwise {h : Nat} {fs : List (List (List Nat) × Nat × Nat)}
    (hc : contiguousFrom h fs = true) :
    (∀ e ∈ fs, h ≤ e.2.2) ∧
    List.Pairwise (fun a b => a.2.2 + a.2.1 ≤ b.2.2) fs := by
  induction fs generalizing h with
  | nil => exact ⟨by simp, List.Pairwise.nil⟩
  | cons e rest ih =>
    rw [contiguousFrom, Bool.and_eq_true, decide_eq_true_eq] at hc
    obtain ⟨he, hrest⟩ := hc
    obtain ⟨hall, hpw⟩ := ih hrest
    constructor
    · intro x hx
      rcases List.mem_cons.mp hx with h1 | h1
      · subst h1; omega
      · have := hall x h1; omega
    · exact List.Pairwise.cons (fun b hb => by have := hall b hb; omega) hpw

theorem write_entries_name_irrel (nm nm2 : List Nat) (kids : List Node) :
    write_entries (.dir nm kids) = write_entries (.dir nm2 kids) := rfl

-- Claim theorems

set_option maxRecDepth 4000

/-- Claim C1, counterexample: the enumeration used to assign offsets during
    packing (files of a directory before its subdirectories, as from_path
    inserts them) is not the enumeration obtained after the written header is
    decoded (subdirectories before files): on a root with one file and one
    subdirectory holding a file, the two sequences differ. -/
theorem c1_counterexample :
    size_header (.dir [] exChildren) 19 = some 67 ∧
    write_entries (.dir [] exPacked) = some exHeaderBytes ∧
    read_entriesTop exHeaderBytes = .ok (exDecoded, []) ∧
    filesLoop exDecoded [] ≠ filesLoop exPacked [] :=
  ⟨rfl, rfl, rfl, by decide⟩

/-- Claim C1, amended: decoding the written header yields the dirs-first
    reordering of the packed children, so the decoded enumeration is a
    permutation of the offset-assignment enumeration carrying identical
    (path, size, offset) records, but the two sequences coincide only when no
    directory mixes files and subdirectories. -/
theorem c1_amended (nm : List Nat) (cs : List Node) (bs : List Nat)
    (hg : goodNamesList cs = true) (hw : write_entries (.dir nm cs) = some bs) :
    read_entriesTop bs = .ok (dirsFirstL cs, []) ∧
    ∀ path, (filesLoop (dirsFirstL cs) path).Perm (filesLoop cs path) := by
  refine ⟨read_write_top nm cs bs hg hw, fun path => ?_⟩
  show (filesLoop (mapDirsPass cs ++ cs.filter isFile) path).Perm (filesLoop cs path)
  rw [filesLoop_append]
  exact filesLoop_dirsFirst cs path

theorem c1_witness :
    goodNamesList exPacked = true ∧
    write_entries (.dir [] exPacked) = some exHeaderBytes ∧
    read_entriesTop exHeaderBytes = .ok (dirsFirstL exPacked, []) :=
  ⟨by decide, rfl, (c1_amended [] exPacked exHeaderBytes (by decide) rfl).1⟩

/-- Claim C2: size_header on the root returns the fixed preamble length 23
    plus the bytes write_entries emits for the same children, and its result
    never depends on the sizes and offsets stored in file leaves. -/
theorem c2_theorem :
    Option.map List.length preambleBytes = some 23 ∧
    (∀ (cs : List Node) (bs : List Nat), write_entries (.dir [] cs) = some bs →
      size_header (.dir [] cs) 19 = some (23 + bs.length)) ∧
    ∀ (c : Node) (s : Nat), size_header (stripMetaNode c) s = size_header c s := by
  refine ⟨rfl, ?_, size_header_stripMeta⟩
  intro cs bs hw
  have h := size_write_node [] cs 19 bs (u32le 0) hw str_pack_nil
  have e : 19 + (u32le 0).length + bs.length = 23 + bs.length := by
    rw [u32le_length]
  rw [e] at h
  exact h

theorem c2_witness :
    write_entries (.dir [] ([] : List Node)) = some [0, 0, 0, 0, 0] ∧
    size_header (.dir [] ([] : List Node)) 19 = some 28 :=
  ⟨rfl, by simpa using c2_theorem.2.1 [] [0, 0, 0, 0, 0] rfl⟩

/-- Claim C3: with offsets assigned from the computed header length H in
    files order, the enumeration has first offset H, each next offset equal
    to the previous offset plus the previous size, is sorted by offset, no
    two files overlap, and every offset is at least H. -/
theorem c3_theorem (cs : List Node) (H : Nat)
    (_hH : size_header (.dir [] cs) 19 = some H) :
    contiguousFrom H (filesLoop (assignLoop cs H).1 []) = true ∧
    List.Pairwise (fun a b => a.2.2 + a.2.1 ≤ b.2.2) (filesLoop (assignLoop cs H).1 []) ∧
    List.Pairwise (fun a b => a.2.2 ≤ b.2.2) (filesLoop (assignLoop cs H).1 []) ∧
    ∀ e ∈ filesLoop (assignLoop cs H).1 [], H ≤ e.2.2 := by
  have hspec := (assign_loop_spec cs H []).1
  have hpw := contiguous_pairwise hspec
  refine ⟨hspec, hpw.2, ?_, hpw.1⟩
  exact hpw.2.imp (fun hab => by omega)

theorem c3_witness :
    size_header (.dir [] cs3) 19 = some 42 ∧
    contiguousFrom 42 (filesLoop (assignLoop cs3 42).1 []) = true :=
  ⟨rfl, (c3_theorem cs3 42 rfl).1⟩

/-- Claim C4, counterexample: a byte sequence the decoder accepts (and whose
    string field even ends in a null terminator as the format specifies) is
    not reproduced by decode then re-encode: the name bytes 97 0 0 of length
    3 decode to the one-byte name 97, which re-encodes as length 2 bytes
    97 0. -/
theorem c4_counterexample :
    read_entriesTop padHeaderBytes = .ok (padDecoded, []) ∧
    write_entries (.dir [] padDecoded) =
      some [0, 1, 0, 0, 0, 2, 0, 0, 0, 97, 0, 1, 0, 0, 0, 2, 0, 0, 0] ∧
    [0, 1, 0, 0, 0, 2, 0, 0, 0, 97, 0, 1, 0, 0, 0, 2, 0, 0, 0] ≠ padHeaderBytes :=
  ⟨rfl, rfl, by decide⟩

/-- Claim C4, amended: for every header produced by write_entries from a tree
    whose names do not end in a null character, decoding the header and
    re-encoding the decoded tree reproduces the original bytes exactly. -/
theorem c4_amended (nm : List Nat) (cs : List Node) (bs : List Nat)
    (hg : goodNamesList cs = true) (hw : write_entries (.dir nm cs) = some bs) :
    read_entriesTop bs = .ok (dirsFirstL cs, []) ∧
    write_entries (.dir [] (dirsFirstL cs)) = some bs := by
  refine ⟨read_write_top nm cs bs hg hw, ?_⟩
  have h1 := write_entries_dirsFirstNode (Node.dir nm cs)
  rw [show dirsFirstNode (Node.dir nm cs) = Node.dir nm (dirsFirstL cs) from rfl] at h1
  rw [write_entries_name_irrel [] nm (dirsFirstL cs), h1]
  exact hw

theorem c4_witness :
    goodNamesList exPacked = true ∧
    write_entries (.dir [] exPacked) = some exHeaderBytes ∧
    write_entries (.dir [] (dirsFirstL exPacked)) = some exHeaderBytes :=
  ⟨by decide, rfl, (c4_amended [] exPacked exHeaderBytes (by decide) rfl).2⟩

/-- Claim C5, counterexample: a string ending in a null character does not
    round-trip: str_unpack strips every trailing null byte, so packing the
    two-character string 97 0 and unpacking returns the one-character
    string 97. -/
theorem c5_counterexample :
    str_pack [97, 0] = some [3, 0, 0, 0, 97, 0, 0] ∧
    str_unpack [3, 0, 0, 0, 97, 0, 0] = some ([97], []) ∧
    ([97] : List Nat) ≠ [97, 0] :=
  ⟨rfl, rfl, by decide⟩

/-- Claim C5, amended: for every string of single-byte characters that is
    empty or does not end in a null character, decoding its str_pack encoding
    with str_unpack returns the original string and leaves the remaining
    input untouched. -/
theorem c5_amended (s bs rest : List Nat) (hp : str_pack s = some bs)
    (hg : goodName s = true) : str_unpack (bs ++ rest) = some (s, rest) :=
  str_unpack_str_pack rest hp hg

theorem c5_witness :
    str_pack [97] = some [2, 0, 0, 0, 97, 0] ∧ goodName [97] = true ∧
    str_unpack ([2, 0, 0, 0, 97, 0] ++ [7, 7]) = some ([97], [7, 7]) :=
  ⟨rfl, by decide, c5_amended [97] [2, 0, 0, 0, 97, 0] [7, 7] rfl (by decide)⟩

/-- Claim C6: the serialized form of a directory lists all subdirectory
    entries before all file entries, each class in insertion order: encoding
    the dirs-first reordering of any children list emits exactly the same
    bytes as encoding the original interleaved list. -/
theorem c6_theorem (nm : List Nat) (cs : List Node) :
    dirsFirstL cs = mapDirsPass cs ++ cs.filter isFile ∧
    write_entries (.dir nm (dirsFirstL cs)) = write_entries (.dir nm cs) := by
  refine ⟨rfl, ?_⟩
  have h := write_entries_dirsFirstNode (Node.dir nm cs)
  rwa [show dirsFirstNode (Node.dir nm cs) = Node.dir nm (dirsFirstL cs) from rfl] at h

/-- Claim C7, counterexample: open fails on an input whose decoded magic is
    UBI_BF_SIG, version is 1 and root name is empty, because the header after
    the valid preamble is truncated, so failure is not equivalent to a
    preamble mismatch. -/
theorem c7_counterexample :
    str_unpack validPreambleOnly = some (sigBytes, [1, 0, 0, 0, 0, 0, 0, 0]) ∧
    readU32 [1, 0, 0, 0, 0, 0, 0, 0] = some (1, [0, 0, 0, 0]) ∧
    str_unpack [0, 0, 0, 0] = some ([], []) ∧
    openBigFile validPreambleOnly = .error (.headerError []) :=
  ⟨rfl, rfl, rfl, rfl⟩

/-- Claim C7, amended: when the three preamble fields decode, open raises the
    validation error, which carries the actual decoded magic, version and
    root name but no expected values, exactly when the magic differs from
    UBI_BF_SIG or the version differs from 1 or the root name is nonempty;
    open can additionally fail on a truncated preamble or a malformed
    header. -/
theorem c7_amended (input magic r1 : List Nat) (version : Nat)
    (r2 name_root r3 : List Nat)
    (h1 : str_unpack input = some (magic, r1))
    (h2 : readU32 r1 = some (version, r2))
    (h3 : str_unpack r2 = some (name_root, r3)) :
    openBigFile input = .error (.notBigFile magic version name_root) ↔
      (magic ≠ sigBytes ∨ version ≠ 1 ∨ name_root ≠ []) := by
  simp only [openBigFile, h1, h2, h3]
  by_cases hcond : (magic != sigBytes || version != 1 || !name_root.isEmpty) = true
  · rw [if_pos hcond]
    have hiff : ((!name_root.isEmpty) = true) ↔ name_root ≠ [] := by
      simp [List.isEmpty_iff]
    simp only [Bool.or_eq_true, bne_iff_ne] at hcond
    have hcond2 : magic ≠ sigBytes ∨ version ≠ 1 ∨ name_root ≠ [] := by
      rcases hcond with (h | h) | h
      · exact Or.inl h
      · exact Or.inr (Or.inl h)
      · exact Or.inr (Or.inr (hiff.mp h))
    exact ⟨fun _ => hcond2, fun _ => rfl⟩
  · rw [if_neg hcond]
    have hfalse : (magic != sigBytes || version != 1 || !name_root.isEmpty) = false :=
      Bool.eq_false_iff.mpr hcond
    simp only [Bool.or_eq_false_iff, bne_eq_false_iff_eq, Bool.not_eq_false'] at hfalse
    obtain ⟨⟨hm, hv⟩, hr⟩ := hfalse
    have hr2 : name_root = [] := List.isEmpty_iff.mp hr
    constructor
    · intro hL
      exfalso
      cases hread : read_entriesTop r3 with
      | error kids => rw [hread] at hL; simp at hL
      | ok res =>
        rcases res with ⟨kids, rest⟩
        rw [hread] at hL
        simp at hL
    · intro hR
      exfalso
      rcases hR with h | h | h
      · exact h hm
      · exact h hv
      · exact h hr2

theorem c7_witness :
    str_unpack wrongMagicInput = some ([119], [1, 0, 0, 0, 0, 0, 0, 0]) ∧
    readU32 [1, 0, 0, 0, 0, 0, 0, 0] = some (1, [0, 0, 0, 0]) ∧
    str_unpack [0, 0, 0, 0] = some ([], []) ∧
    (openBigFile wrongMagicInput = .error (.notBigFile [119] 1 []) ↔
      (([119] : List Nat) ≠ sigBytes ∨ (1 : Nat) ≠ 1 ∨ ([] : List Nat) ≠ [])) :=
  ⟨rfl, rfl, rfl, c7_amended wrongMagicInput [119] _ 1 _ [] _ rfl rfl rfl⟩

/-- Claim C8, counterexample: extraction performs no bounds check: for a file
    whose offset 8 plus size 5 exceeds the ten-byte buffer, extract raises
    nothing and writes the silently truncated two-byte slice. -/
theorem c8_counterexample :
    extractWrites exOOB exBuffer = [([[102]], [8, 9])] ∧
    8 + 5 > exBuffer.length ∧ ([8, 9] : List Nat).length ≠ 5 :=
  ⟨rfl, by decide, by decide⟩

/-- Claim C8, amended: extract writes, for every file record, the Python
    slice buffer[offset : offset + size], whose length is the minimum of the
    size and the bytes available past the offset; a record extending past the
    buffer end is silently truncated and extraction continues. -/
theorem c8_amended (cs : List Node) (buffer : List Nat) (p : List (List Nat))
    (sz off : Nat) (hm : (p, sz, off) ∈ filesLoop cs []) :
    (p, (buffer.drop off).take sz) ∈ extractWrites cs buffer ∧
    ((buffer.drop off).take sz).length = min sz (buffer.length - off) := by
  constructor
  · have := List.mem_map_of_mem
      (fun e => (e.1, (buffer.drop e.2.2).take e.2.1)) hm
    simpa [extractWrites] using this
  · simp [List.length_take, List.length_drop]

theorem c8_witness :
    (([[102]], 5, 8) ∈ filesLoop exOOB []) ∧
    (([[102]], (exBuffer.drop 8).take 5) ∈ extractWrites exOOB exBuffer) ∧
    ((exBuffer.drop 8).take 5).length = min 5 (exBuffer.length - 8) :=
  ⟨by decide, (c8_amended exOOB exBuffer [[102]] 5 8 (by decide)).1,
    (c8_amended exOOB exBuffer [[102]] 5 8 (by decide)).2⟩

/-- Claim C9, counterexample: a failed decode does not leave the node without
    children: on input announcing two subdirectories with only one present,
    the struct error is raised with the first decoded subdirectory already
    added to the node. -/
theorem c9_counterexample :
    read_entriesTop truncatedInput = .error [Node.dir [] []] ∧
    [Node.dir [] []] ≠ ([] : List Node) :=
  ⟨rfl, List.cons_ne_nil _ _⟩

/-- Claim C9, amended: a length-prefixed string read never fails when at
    least the 4 length bytes remain: fewer than L remaining bytes are
    silently returned, and the failure surfaces only at the next fixed-width
    integer read, as on the ten-byte input whose file-name field announces 5
    bytes with one present. -/
theorem c9_amended :
    (∀ input : List Nat, 4 ≤ input.length → (str_unpack input).isSome = true) ∧
    str_unpack [5, 0, 0, 0, 97] = some ([97], []) ∧
    read_entriesTop truncStringInput = .error [] :=
  ⟨fun _ h => str_unpack_isSome h, rfl, rfl⟩

theorem c9_witness :
    4 ≤ ([0, 0, 0, 0] : List Nat).length ∧
    (str_unpack [0, 0, 0, 0]).isSome = true :=
  ⟨by decide, c9_amended.1 [0, 0, 0, 0] (by decide)⟩

/-- Claim C10: write_entries succeeds only when every directory of the tree
    has at most 255 subdirectory children, the bound of the one-byte count
    field; a directory with 256 subdirectories makes encoding fail while
    size_header still returns its 2332-byte prediction. -/
theorem c10_theorem :
    (∀ (c : Node) (bs : List Nat), write_entries c = some bs → subdirsOkNode c = true) ∧
    write_entries (.dir [] big256) = none ∧
    size_header (.dir [] big256) 19 = some 2332 := by
  refine ⟨subdirsOk_of_write_node, by decide, by decide⟩

theorem c10_witness :
    write_entries (.dir [] ([] : List Node)) = some [0, 0, 0, 0, 0] ∧
    subdirsOkNode (.dir [] ([] : List Node)) = true :=
  ⟨rfl, c10_theorem.1 (.dir [] []) [0, 0, 0, 0, 0] rfl⟩
